import Mathlib

/-!
# Verification of the ocis-overlay node-identity / path-consistency subsystem

Shallow embedding of the Go sources of `butonic/ocis-overlay`:
`overlay/filesystem.go` (FS registry, xattr store), `overlay/overlay.go`
(error translation), and the Node/Handle methods (`Rename`, `Setattr`,
`Fsync`, `Access`, `Getxattr`/`Setxattr`/`Listxattr`/`Removexattr`,
`ReadDirAll`, `getDirentsWithFileInfos`).

Modelling conventions:
* Byte slices are `List Nat`.
* Go maps are total functions with an explicit "absent" default:
  `xattrs : String → Option _` where `none` stands for "key absent or
  key present with a `nil` map" (the Go code never distinguishes the two:
  every read site guards with `!= nil`), and `nodes : String → List Nat`
  where `[]` stands for "key absent or present with an empty/nil slice"
  (again indistinguishable at every read site).
* Node objects are identified by a `Nat` id; the heap of per-node
  `realPath` fields is the function `nodePath : Nat → String`.
* Underlying-filesystem calls (`os.Rename`, `os.Stat`, `Readdir`, …) are
  oracles passed in as parameters (`Option OsErr` / `Except OsErr _`).
* Locks are dropped: each Go critical section becomes one atomic Lean
  state transition.
-/

namespace Overlay

/-- Byte strings (Go `[]byte`) as lists of naturals. -/
abbrev Bytes := List Nat

/-- Error classes of the underlying filesystem, as discriminated by
`os.IsNotExist` / `os.IsExist` / `os.IsPermission`; `other c` is any
other error value. -/
inductive OsErr where
  | notExist
  | exist
  | permission
  | other (code : Nat)
deriving DecidableEq, Repr

/-- Protocol-level errors returned to the FUSE layer (`fuse.ENOENT`,
`fuse.EEXIST`, `fuse.EPERM`, `fuse.ENOTSUP`, `fuse.ENODATA`, `fuse.Eio`),
plus `raw c` for an underlying error passed through untranslated. -/
inductive Err where
  | ENOENT
  | EEXIST
  | EPERM
  | ENOTSUP
  | ENODATA
  | Eio
  | raw (code : Nat)
deriving DecidableEq, Repr

/-- Function `translateError` from `overlay/overlay.go`: maps not-found /
already-exists / permission conditions to protocol codes and passes any
other error through unchanged. -/
def translateError : OsErr → Err
  | .notExist => .ENOENT
  | .exist => .EEXIST
  | .permission => .EPERM
  | .other c => .raw c

/-- Pointwise map update (Go `m[k] = v`). -/
def upd {κ α : Type} [DecidableEq κ] (m : κ → α) (k : κ) (v : α) : κ → α :=
  fun x => if x = k then v else m x

/-- Lookup in the inner xattr map (Go `v, ok := x[name]`). -/
def xget (x : List (String × Bytes)) (name : String) : Option Bytes :=
  match x with
  | [] => none
  | (k, v) :: rest => if k = name then some v else xget rest name

/-- Insert/overwrite in the inner xattr map (Go `x[name] = buf`). -/
def xset (x : List (String × Bytes)) (name : String) (v : Bytes) :
    List (String × Bytes) :=
  match x with
  | [] => [(name, v)]
  | (k, w) :: rest => if k = name then (k, v) :: rest else (k, w) :: xset rest name v

/-- Delete from the inner xattr map (Go `delete(x, name)`); keys are
unique in every reachable map, so removing the first hit is removal. -/
def xdel (x : List (String × Bytes)) (name : String) : List (String × Bytes) :=
  match x with
  | [] => []
  | (k, w) :: rest => if k = name then rest else (k, w) :: xdel rest name

/-- The key set of the inner xattr map (Go `for k := range x`). -/
def keysOf (x : List (String × Bytes)) : List String := x.map Prod.fst

/-- The `FS` struct of `overlay/filesystem.go`.

`inMemoryXattr` is read by `Node.Getxattr`/`Setxattr`/`Listxattr`/
`Removexattr` (`if !n.fs.inMemoryXattr { return fuse.ENOTSUP }`); the
struct literal in `NewFS` does not mention it, so Go zero-initializes it
to `false`. `latency` (a `time.Duration`) is a `Nat` here. -/
structure FS where
  rootPath : String
  xattrs : String → Option (List (String × Bytes))
  nodes : String → List Nat
  nodePath : Nat → String
  latency : Nat
  inMemoryXattr : Bool

/-- Constructor `NewFS` from `overlay/filesystem.go`: empty maps, configured latency,
all remaining fields zero-valued. -/
def NewFS (latency : Nat) : FS :=
  { rootPath := "."
    xattrs := fun _ => none
    nodes := fun _ => []
    nodePath := fun _ => ""
    latency := latency
    inMemoryXattr := false }

/-- Registry operation `FS.newNode`: reads the node's current real path and appends the node
to that bucket of the registry. -/
def newNode (f : FS) (n : Nat) : FS :=
  let rp := f.nodePath n
  { f with nodes := upd f.nodes rp (f.nodes rp ++ [n]) }

/-- Registry operation `FS.nodeRenamed`, statement by statement:
`f.nodes[newPath] = append(f.nodes[newPath], f.nodes[oldPath]...)`;
`delete(f.nodes, oldPath)`;
`for _, n := range f.nodes[newPath] { n.updateRealPath(newPath) }`
(the loop ranges over the map as it stands *after* the delete). -/
def nodeRenamed (f : FS) (oldPath newPath : String) : FS :=
  let merged := f.nodes newPath ++ f.nodes oldPath
  let nodes1 := upd f.nodes newPath merged
  let nodes2 := upd nodes1 oldPath []
  let toUpdate := nodes2 newPath
  { f with
    nodes := nodes2
    nodePath := toUpdate.foldl (fun acc id => upd acc id newPath) f.nodePath }

/-- Registry operation `FS.forgetNode`: looks up the bucket for `n.realPath`, removes the
first (only) occurrence of `n`, deleting the key if the bucket empties.
With `[]` standing for an absent key this is exactly `List.erase`. -/
def forgetNode (f : FS) (n : Nat) : FS :=
  let rp := f.nodePath n
  { f with nodes := upd f.nodes rp ((f.nodes rp).erase n) }

/-- Store operation `FS.moveAllxattrs`: if `f.xattrs[fromP] != nil`, copy the map to
`toP` (when `toP` is nonempty) and then set `f.xattrs[fromP] = nil`.
If `fromP` has no (non-nil) entry nothing at all happens — in particular
a pre-existing entry at `toP` is left in place. -/
def moveAllxattrs (f : FS) (fromP toP : String) : FS :=
  match f.xattrs fromP with
  | none => f
  | some m =>
    let f1 := if toP ≠ "" then { f with xattrs := upd f.xattrs toP (some m) } else f
    { f1 with xattrs := upd f1.xattrs fromP none }

/-- Operation `Node.Getxattr` with the node's current real path `p`
(`n.getRealPath()`): `ENOTSUP` unless emulation is on, then the stored
value, else `ENODATA`. -/
def GetxattrAt (f : FS) (p : String) (name : String) : Except Err Bytes :=
  if !f.inMemoryXattr then .error .ENOTSUP
  else
    match f.xattrs p with
    | some x =>
      match xget x name with
      | some v => .ok v
      | none => .error .ENODATA
    | none => .error .ENODATA

/-- Operation `Node.Setxattr` with the node's current real path `p`: creates the
inner map if absent/nil, then stores the value. -/
def SetxattrAt (f : FS) (p name : String) (v : Bytes) : FS × Option Err :=
  if !f.inMemoryXattr then (f, some .ENOTSUP)
  else
    let x := match f.xattrs p with | none => [] | some x => x
    ({ f with xattrs := upd f.xattrs p (some (xset x name v)) }, none)

/-- Operation `Node.Removexattr` with the node's current real path `p`: deletes the
named attribute if present, else `ENODATA`. -/
def RemovexattrAt (f : FS) (p name : String) : FS × Option Err :=
  if !f.inMemoryXattr then (f, some .ENOTSUP)
  else
    match f.xattrs p with
    | some x =>
      match xget x name with
      | some _ => ({ f with xattrs := upd f.xattrs p (some (xdel x name)) }, none)
      | none => (f, some .ENODATA)
    | none => (f, some .ENODATA)

/-- Go `sort.Strings` on the collected key list. -/
def sortStrings (names : List String) : List String :=
  List.insertionSort (· ≤ ·) names

/-- The slicing logic of `Node.Listxattr` on an already-collected key
list: sort, return `[]` if the position is past the end, otherwise drop
`position` names and take `size` of them (`size = 0` or `size` larger
than the remainder means all of the remainder). -/
def listxattrNames (names : List String) (position size : Nat) : List String :=
  let ns := sortStrings names
  if position ≥ ns.length then []
  else
    let ns := ns.drop position
    let s := if size = 0 || decide (size > ns.length) then ns.length else size
    ns.take s

/-- Operation `Node.Listxattr` with the node's current real path `p`: `ENOTSUP`
unless emulation is on; an absent/nil entry yields an empty response. -/
def ListxattrAt (f : FS) (p : String) (position size : Nat) :
    Except Err (List String) :=
  if !f.inMemoryXattr then .error .ENOTSUP
  else
    match f.xattrs p with
    | none => .ok []
    | some x => .ok (listxattrNames (keysOf x) position size)

/-- Repeated `Listxattr` calls on a fixed key list: one call per entry of
`sizes`, each next call starting at the previous offset advanced by the
number of names the previous call returned, concatenating everything
returned. This is the client loop of the pagination claim. -/
def pagEnum (names : List String) : List Nat → Nat → List String
  | [], _ => []
  | sz :: rest, pos =>
    let r := listxattrNames names pos sz
    r ++ pagEnum names rest (pos + r.length)

/-- Operation `Node.Rename` after the two `filepath.Join` calls: `op` and `np` are
the joined old and new full paths, `osRename` the outcome of
`os.Rename(op, np)`. On failure the translated error is returned and no
other state is touched; on success the deferred block runs
`moveAllxattrs(op, np)` and then `nodeRenamed(op, np)`. -/
def Rename (f : FS) (op np : String) (osRename : Option OsErr) :
    FS × Option Err :=
  match osRename with
  | some e => (f, some (translateError e))
  | none => (nodeRenamed (moveAllxattrs f op np) op np, none)

/-! ## Reachable registry states and the registry invariant -/

/-- Registry invariant of the spec's data model: every node present in
the registry sits in the bucket keyed by its own current `realPath`. -/
def RegInv (f : FS) : Prop :=
  ∀ p id, id ∈ f.nodes p → f.nodePath id = p

/-- Registry states reachable through the registry operations of
`overlay/filesystem.go`. `createNode` is the pattern of `Root`, `Lookup`,
`Create` and `Mkdir`: allocate a fresh `Node` object with `realPath := p`
(freshness of the *object* means it is in no registry bucket yet), then
call `fs.newNode` on it. `nodeRenamed` is reachable both directly and
through `Node.Rename`. -/
inductive Reach : FS → Prop where
  | init (lat : Nat) : Reach (NewFS lat)
  | createNode (f : FS) (id : Nat) (p : String) :
      Reach f → (∀ q, id ∉ f.nodes q) →
      Reach (newNode { f with nodePath := upd f.nodePath id p } id)
  | renamed (f : FS) (oldPath newPath : String) :
      Reach f → Reach (nodeRenamed f oldPath newPath)
  | renameOp (f : FS) (op np : String) (r : Option OsErr) :
      Reach f → Reach (Rename f op np r).1
  | forget (f : FS) (id : Nat) :
      Reach f → Reach (forgetNode f id)
  | movedXattrs (f : FS) (fromP toP : String) :
      Reach f → Reach (moveAllxattrs f fromP toP)
  | setx (f : FS) (p name : String) (v : Bytes) :
      Reach f → Reach (SetxattrAt f p name v).1
  | removex (f : FS) (p name : String) :
      Reach f → Reach (RemovexattrAt f p name).1

/-! ## Setattr (`Node.Setattr`)

State is the metadata of the file at the node's path; every underlying
call (`Truncate`, `Chmod`, `Chown`, `Stat`) is taken to succeed, which is
the interesting path for the modification-time claim. -/

/-- The metadata of the file at the node's current path, as mutated by
the underlying `Truncate`/`Chmod`/`Chown` calls and read back by `Stat`. -/
structure FileMeta where
  size : Nat
  mtime : Nat
  atime : Nat
  mode : Nat
  uid : Nat
  gid : Nat
deriving DecidableEq, Repr

/-- The `Valid` bits of a `fuse.SetattrRequest` consulted by
`Node.Setattr`. -/
structure SetattrValid where
  size : Bool
  mtime : Bool
  atime : Bool
  hasHandle : Bool
  mode : Bool
  uid : Bool
  gid : Bool
deriving DecidableEq, Repr

/-- The fields of a `fuse.SetattrRequest` consulted by `Node.Setattr`
(times as `Nat` instants). -/
structure SetattrRequest where
  valid : SetattrValid
  size : Nat
  mtime : Nat
  atime : Nat
  mode : Nat
  uid : Nat
  gid : Nat
deriving DecidableEq, Repr

/-- The timeval pair built inside the `req.Valid.Mtime()` branch of
`Node.Setattr`: `tvs[0]` is the requested atime or, when no atime was
requested, the current time; `tvs[1]` is the requested mtime.
(`tToTv` only converts representations and is the identity here.) -/
def setattrTvs (now : Nat) (req : SetattrRequest) : Nat × Nat :=
  ((if !req.valid.atime then now else req.atime), req.mtime)

/-- Operation `Node.Setattr`, branch for branch, on the file metadata.  The
`req.Valid.Mtime()` branch computes `tvs` (see `setattrTvs`) **and does
nothing with it** — no `utimes`-like primitive is invoked anywhere in the
method, so the metadata times are untouched.  The `Valid.Handle()` branch
only logs.  The chown branch mirrors the source: a combined chown when
both ids are requested, then a re-stat and a second chown filling the
unrequested half from the stat.  `setattrPlatformSpecific` (a platform
file not under `src/`) is modelled from the spec: of the spec's four
updates (a)–(d) none is delegated to it, and it performs no
size/time/mode/owner change, so it is the identity on this metadata. -/
def Setattr (meta : FileMeta) (req : SetattrRequest) (now : Nat) : FileMeta :=
  let meta := if req.valid.size then { meta with size := req.size } else meta
  let _tvs := if req.valid.mtime then some (setattrTvs now req) else none
  let meta := if req.valid.mode then { meta with mode := req.mode } else meta
  let meta :=
    -- `if req.Valid.Uid() || req.Valid.Gid()`, split on the two bits:
    if req.valid.uid then
      -- both requested: combined chown first, then re-stat + uid-chown
      let meta := if req.valid.gid then { meta with uid := req.uid, gid := req.gid } else meta
      let s := meta
      { meta with uid := req.uid, gid := s.gid }
    else if req.valid.gid then
      let s := meta
      { meta with uid := s.uid, gid := req.gid }
    else meta
  meta

/-! ## Fsync / Flush (`Node.Fsync`, `Handle.Flush`) -/

/-- The `flushers` set of a Node (`map[*Handle]bool`), with the map's
arbitrary iteration order abstracted as the list order; handles are ids. -/
structure NodeHandles where
  flushers : List Nat
deriving DecidableEq, Repr

/-- Operation `Handle.Flush`: returns `h.f.Sync()` verbatim (`sync h = none` means
the underlying sync succeeded). -/
def Flush (sync : Nat → Option Err) (h : Nat) : Option Err := sync h

/-- Operation `Node.Fsync`: `for h := range n.flushers { return h.f.Sync() }` —
returns the sync of the first iterated handle — `return fuse.Eio` when
the range is empty. -/
def Fsync (sync : Nat → Option Err) (n : NodeHandles) : Option Err :=
  match n.flushers with
  | [] => some .Eio
  | h :: _ => sync h

/-! ## Access (`Node.Access`) -/

/-- Operation `Node.Access`: stat the current path; on success deny with `EPERM`
unless `a.Mask & uint32(fi.Mode()>>6) == a.Mask`. `statResult` carries
`uint32(fi.Mode())` of the stat. All values are below `2^32`, where `Nat`
and `uint32` arithmetic agree (`>>` and `&` cannot overflow). -/
def Access (statResult : Except OsErr Nat) (mask : Nat) : Option Err :=
  match statResult with
  | .error e => some (translateError e)
  | .ok mode => if mask &&& (mode >>> 6) != mask then some .EPERM else none

/-! ## Directory listing (`getDirentsWithFileInfos`, `Handle.ReadDirAll`) -/

/-- Constant `os.ModeDir` (bit 31 of `os.FileMode`). -/
def ModeDir : Nat := 2 ^ 31
/-- Constant `os.ModeSymlink` (bit 27). -/
def ModeSymlink : Nat := 2 ^ 27
/-- Constant `os.ModeDevice` (bit 26). -/
def ModeDevice : Nat := 2 ^ 26
/-- Constant `os.ModeNamedPipe` (bit 25). -/
def ModeNamedPipe : Nat := 2 ^ 25
/-- Constant `os.ModeSocket` (bit 24). -/
def ModeSocket : Nat := 2 ^ 24
/-- Constant `os.ModeCharDevice` (bit 21). -/
def ModeCharDevice : Nat := 2 ^ 21
/-- Constant `os.ModeIrregular` (bit 19). -/
def ModeIrregular : Nat := 2 ^ 19
/-- Constant `os.ModeType`: the union of all file-type bits. -/
def ModeType : Nat :=
  ModeDir ||| ModeSymlink ||| ModeNamedPipe ||| ModeSocket |||
    ModeDevice ||| ModeCharDevice ||| ModeIrregular

/-- Predicate `FileInfo.IsDir()`: the `ModeDir` bit is set. -/
def isDirMode (m : Nat) : Bool := m &&& ModeDir != 0

/-- Predicate `FileMode.IsRegular()`: no file-type bit is set. -/
def isRegularMode (m : Nat) : Bool := m &&& ModeType == 0

/-- The part of an `os.FileInfo` consumed by `getDirentsWithFileInfos`:
mode, inode (from `Sys().(*syscall.Stat_t)`), and name. -/
structure FileInfo where
  mode : Nat
  ino : Nat
  name : String
deriving DecidableEq, Repr

/-- The `fuse.DirentType` values produced here. -/
inductive DirentType where
  | DT_Dir
  | DT_File
deriving DecidableEq, Repr

/-- Record for a `fuse.Dirent`. -/
structure Dirent where
  inode : Nat
  name : String
  type : DirentType
deriving DecidableEq, Repr

/-- Function `getDirentsWithFileInfos`: a dirent per entry — `DT_Dir` for
directories, `DT_File` for regular files, and `panic("unsupported dirent
type")` for anything else, modelled as `none`. -/
def getDirentsWithFileInfos : List FileInfo → Option (List Dirent)
  | [] => some []
  | fi :: rest =>
    if isDirMode fi.mode then
      (getDirentsWithFileInfos rest).map (⟨fi.ino, fi.name, .DT_Dir⟩ :: ·)
    else if isRegularMode fi.mode then
      (getDirentsWithFileInfos rest).map (⟨fi.ino, fi.name, .DT_File⟩ :: ·)
    else none

/-- Outcome of `Handle.ReadDirAll`: a dirent list, a returned error, or a
panic escaping the method. -/
inductive ReadDirResult where
  | ok (ds : List Dirent)
  | err (e : Err)
  | panicked
deriving DecidableEq, Repr

/-- Operation `Handle.ReadDirAll`: `Readdir(0)` (whose outcome is `readdir`), then
close and reopen the descriptor (outcomes `closeErr`, `reopenErr`), each
failure translated and returned; only then `getDirentsWithFileInfos` runs
on the collected infos, where an unsupported entry type panics. -/
def ReadDirAll (readdir : Except OsErr (List FileInfo))
    (closeErr reopenErr : Option OsErr) : ReadDirResult :=
  match readdir with
  | .error e => .err (translateError e)
  | .ok fis =>
    match closeErr with
    | some e => .err (translateError e)
    | none =>
      match reopenErr with
      | some e => .err (translateError e)
      | none =>
        match getDirentsWithFileInfos fis with
        | none => .panicked
        | some ds => .ok ds

/-! ## Strict path descendance (for the rename frame claim) -/

/-- Path `q` lies strictly below `p` in the path tree: `q = p ++ "/" ++ t` for
some nonempty suffix `t`. -/
def StrictDescendant (q p : String) : Prop :=
  ∃ t : String, t ≠ "" ∧ q = p ++ "/" ++ t

/-- Reachable sample state for the C2 witness: one node (id `5`) created
with real path `"a"` and registered. -/
def regSample : FS :=
  newNode { NewFS 0 with nodePath := upd (NewFS 0).nodePath 5 "a" } 5

/-- Sample state for the C1 witness: emulation on, attribute
`"k" ↦ [1]` stored for `"a"`, node `0` registered under `"a"`. -/
def renameSample : FS :=
  { rootPath := "."
    xattrs := upd (fun _ => none) "a" (some [("k", [1])])
    nodes := upd (fun _ => []) "a" [0]
    nodePath := upd (fun _ => "") 0 "a"
    latency := 0
    inMemoryXattr := true }

/-- Sample state refuting C1 as stated: *no* attributes under the rename
source `"a"`, a stale attribute set under the destination `"b"`, node `0`
registered under `"a"`, emulation on. -/
def renameStaleSample : FS :=
  { rootPath := "."
    xattrs := upd (fun _ => none) "b" (some [("k", [1])])
    nodes := upd (fun _ => []) "a" [0]
    nodePath := upd (fun _ => "") 0 "a"
    latency := 0
    inMemoryXattr := true }

/-- Sample state for the C10 witness: node `0` at `"a"`, node `1` at the
strict descendant `"a/b"`, an attribute stored for `"a/b"`. -/
def frameSample : FS :=
  { rootPath := "."
    xattrs := upd (fun _ => none) "a/b" (some [("k", [2])])
    nodes := upd (upd (fun _ => []) "a/b" [1]) "a" [0]
    nodePath := upd (upd (fun _ => "") 1 "a/b") 0 "a"
    latency := 0
    inMemoryXattr := true }

/-! ## Helper lemmas -/

/-- Sample state for the C7 witness: emulation on, two attributes stored
for `"p"` (in unsorted key order). -/
def pagSample : FS :=
  { rootPath := "."
    xattrs := upd (fun _ => none) "p" (some [("b", [1]), ("a", [2])])
    nodes := fun _ => []
    nodePath := fun _ => ""
    latency := 0
    inMemoryXattr := true }

@[simp] theorem upd_same {κ α : Type} [DecidableEq κ] (m : κ → α) (k : κ) (v : α) :
    upd m k v k = v := by simp [upd]

@[simp] theorem upd_ne {κ α : Type} [DecidableEq κ] (m : κ → α) (k : κ) (v : α)
    (x : κ) (h : x ≠ k) : upd m k v x = m x := by simp [upd, h]

/-- Folding point updates with a constant value over a list sets exactly
the listed points. -/
theorem foldl_upd_mem (v : String) (l : List Nat) :
    ∀ (g : Nat → String) (id : Nat),
      (l.foldl (fun acc j => upd acc j v) g) id = if id ∈ l then v else g id := by
  induction l with
  | nil => intro g id; simp
  | cons x xs ih =>
    intro g id
    rw [List.foldl_cons, ih]
    by_cases hx : id ∈ xs
    · simp [hx]
    · by_cases hxy : id = x
      · subst hxy; simp [hx, upd]
      · simp [hx, hxy, upd]

/-- Frame: `moveAllxattrs` touches neither the registry nor node paths
nor the configuration. -/
theorem moveAllxattrs_frame (f : FS) (a b : String) :
    (moveAllxattrs f a b).nodes = f.nodes
    ∧ (moveAllxattrs f a b).nodePath = f.nodePath
    ∧ (moveAllxattrs f a b).latency = f.latency
    ∧ (moveAllxattrs f a b).inMemoryXattr = f.inMemoryXattr := by
  unfold moveAllxattrs
  cases f.xattrs a with
  | none => exact ⟨rfl, rfl, rfl, rfl⟩
  | some m =>
    by_cases hb : b ≠ "" <;> simp [hb]

/-- Frame: `nodeRenamed` touches neither the xattr store nor the
configuration. -/
theorem nodeRenamed_frame (f : FS) (a b : String) :
    (nodeRenamed f a b).xattrs = f.xattrs
    ∧ (nodeRenamed f a b).latency = f.latency
    ∧ (nodeRenamed f a b).inMemoryXattr = f.inMemoryXattr :=
  ⟨rfl, rfl, rfl⟩

/-- Value of the xattr store after `moveAllxattrs` at a key different
from both endpoints. -/
theorem moveAllxattrs_xattrs_ne (f : FS) (a b q : String)
    (hqa : q ≠ a) (hqb : q ≠ b) :
    (moveAllxattrs f a b).xattrs q = f.xattrs q := by
  unfold moveAllxattrs
  cases f.xattrs a with
  | none => rfl
  | some m =>
    by_cases hb : b ≠ ""
    · simp [hb, upd, hqa, hqb]
    · simp [hb, upd, hqa]

/-- Characterization of a bit-masked fixpoint: `mask &&& m = mask` holds
exactly when every set bit of `mask` is set in `m`. -/
theorem and_eq_self_iff_subset (mask m : Nat) :
    mask &&& m = mask ↔ ∀ i, mask.testBit i = true → m.testBit i = true := by
  constructor
  · intro h i hi
    have hb := congrArg (fun n => Nat.testBit n i) h
    simp only [Nat.testBit_and, hi, Bool.true_and] at hb
    exact hb
  · intro h
    apply Nat.eq_of_testBit_eq
    intro i
    rw [Nat.testBit_and]
    cases hmask : mask.testBit i with
    | false => simp
    | true => simp [h i hmask]

/-- The dirent builder signals the panic exactly when some entry is
neither a directory nor a regular file. -/
theorem getDirents_none_iff (fis : List FileInfo) :
    getDirentsWithFileInfos fis = none
      ↔ ∃ fi ∈ fis, isDirMode fi.mode = false ∧ isRegularMode fi.mode = false := by
  induction fis with
  | nil => simp [getDirentsWithFileInfos]
  | cons fi rest ih =>
    by_cases hd : isDirMode fi.mode
    · simp [getDirentsWithFileInfos, hd, Option.map_eq_none', ih]
    · by_cases hr : isRegularMode fi.mode
      · simp [getDirentsWithFileInfos, hd, hr, Option.map_eq_none', ih]
      · simp only [getDirentsWithFileInfos, hd, hr, if_false]
        constructor
        · intro _
          exact ⟨fi, List.mem_cons_self fi rest,
            by simp [hd], by simp [hr]⟩
        · intro _; rfl

/-! ## C3: a failed underlying rename migrates nothing -/

/-- C3: if the underlying `os.Rename` fails, `Node.Rename` returns the
translated error and performs neither the xattr migration nor the
registry migration — the xattr store, registry buckets and every node's
path field are exactly those of the pre-call state, and the migrations
run only in the success branch. -/
theorem rename_fail_no_migration (f : FS) (op np : String) (e : OsErr) :
    (Rename f op np (some e)).1.xattrs = f.xattrs
    ∧ (Rename f op np (some e)).1.nodes = f.nodes
    ∧ (Rename f op np (some e)).1.nodePath = f.nodePath
    ∧ (Rename f op np (some e)).2 = some (translateError e) :=
  ⟨rfl, rfl, rfl, rfl⟩

/-! ## C4: the modification-time branch of Setattr is dead code -/

/-- C4 (code bug): `Node.Setattr` never changes the file's times. The
`req.Valid.Mtime()` branch builds the `(atime, mtime)` timeval pair —
with exactly the fall-back-to-now behavior the spec describes, see
`setattrTvs` — but no primitive applying it is ever invoked, so for every
request (mtime change requested or not) the file's mtime and atime are
those it already had. This contradicts the claim that a requested
modification-time change updates the file's mtime. -/
theorem setattr_never_updates_times (meta : FileMeta) (req : SetattrRequest)
    (now : Nat) :
    (Setattr meta req now).mtime = meta.mtime
    ∧ (Setattr meta req now).atime = meta.atime
    ∧ setattrTvs now req
        = ((if req.valid.atime then req.atime else now), req.mtime) := by
  refine ⟨?_, ?_, ?_⟩
  · unfold Setattr
    cases req.valid.size <;> cases req.valid.mode <;>
      cases req.valid.uid <;> cases req.valid.gid <;> simp
  · unfold Setattr
    cases req.valid.size <;> cases req.valid.mode <;>
      cases req.valid.uid <;> cases req.valid.gid <;> simp
  · unfold setattrTvs
    cases req.valid.atime <;> simp

/-! ## C5: construction-time configuration -/

/-- C5 counterexample: the emulation flag is not supplied at
construction. `NewFS` takes only the latency; no construction produces an
FS with `inMemoryXattr = true`, and on a freshly constructed FS a
getxattr always fails with NotSupported instead of consulting the store. -/
theorem newFS_no_xattr_flag :
    (¬ ∃ lat : Nat, (NewFS lat).inMemoryXattr = true)
    ∧ GetxattrAt (NewFS 0) "p" "attr" = .error .ENOTSUP := by
  constructor
  · rintro ⟨lat, h⟩
    simp [NewFS] at h
  · rfl

/-- C5 (amended): only the artificial latency is supplied at
construction; the emulation flag consulted by the four xattr operations
is left at its zero value `false` by `NewFS`. Both configuration fields
are immutable thereafter: no operation of the subsystem changes
`latency` or `inMemoryXattr`. -/
theorem newFS_config (lat : Nat) :
    (NewFS lat).latency = lat
    ∧ (NewFS lat).inMemoryXattr = false
    ∧ (∀ (f : FS) (a b : String),
        (moveAllxattrs f a b).latency = f.latency
        ∧ (moveAllxattrs f a b).inMemoryXattr = f.inMemoryXattr)
    ∧ (∀ (f : FS) (a b : String),
        (nodeRenamed f a b).latency = f.latency
        ∧ (nodeRenamed f a b).inMemoryXattr = f.inMemoryXattr)
    ∧ (∀ (f : FS) (n : Nat),
        (newNode f n).latency = f.latency
        ∧ (newNode f n).inMemoryXattr = f.inMemoryXattr)
    ∧ (∀ (f : FS) (n : Nat),
        (forgetNode f n).latency = f.latency
        ∧ (forgetNode f n).inMemoryXattr = f.inMemoryXattr)
    ∧ (∀ (f : FS) (a b : String) (r : Option OsErr),
        (Rename f a b r).1.latency = f.latency
        ∧ (Rename f a b r).1.inMemoryXattr = f.inMemoryXattr)
    ∧ (∀ (f : FS) (p name : String) (v : Bytes),
        (SetxattrAt f p name v).1.latency = f.latency
        ∧ (SetxattrAt f p name v).1.inMemoryXattr = f.inMemoryXattr)
    ∧ (∀ (f : FS) (p name : String),
        (RemovexattrAt f p name).1.latency = f.latency
        ∧ (RemovexattrAt f p name).1.inMemoryXattr = f.inMemoryXattr) := by
  refine ⟨rfl, rfl, ?_, ?_, ?_, ?_, ?_, ?_, ?_⟩
  · intro f a b
    exact ⟨(moveAllxattrs_frame f a b).2.2.1, (moveAllxattrs_frame f a b).2.2.2⟩
  · intro f a b
    exact ⟨rfl, rfl⟩
  · intro f n
    exact ⟨rfl, rfl⟩
  · intro f n
    exact ⟨rfl, rfl⟩
  · intro f a b r
    cases r with
    | some e => exact ⟨rfl, rfl⟩
    | none =>
      refine ⟨?_, ?_⟩
      · exact ((nodeRenamed_frame _ a b).2.1).trans (moveAllxattrs_frame f a b).2.2.1
      · exact ((nodeRenamed_frame _ a b).2.2).trans (moveAllxattrs_frame f a b).2.2.2
  · intro f p name v
    cases hf : f.inMemoryXattr <;> simp [SetxattrAt, hf]
  · intro f p name
    cases hf : f.inMemoryXattr with
    | false => simp [RemovexattrAt, hf]
    | true =>
      cases hx : f.xattrs p with
      | none => simp [RemovexattrAt, hf, hx]
      | some x =>
        cases hg : xget x name <;> simp [RemovexattrAt, hf, hx, hg]

/-! ## C6: fsync delegates to an owned handle or fails with Eio -/

/-- C6: with no open handle registered on the node, `Node.Fsync` fails
with `Eio`; with at least one, it syncs one of the registered handles
(the first one the map iteration yields), which is exactly `Handle.Flush`
of that handle, and in particular succeeds whenever that handle's
underlying sync succeeds. -/
theorem fsync_delegates_or_eio (sync : Nat → Option Err) (n : NodeHandles) :
    (n.flushers = [] → Fsync sync n = some Err.Eio)
    ∧ (n.flushers ≠ [] →
        ∃ h, h ∈ n.flushers ∧ Fsync sync n = Flush sync h
          ∧ (sync h = none → Fsync sync n = none)) := by
  constructor
  · intro h
    simp [Fsync, h]
  · intro h
    match hm : n.flushers with
    | [] => exact absurd hm h
    | x :: xs =>
      refine ⟨x, by simp [hm], by simp [Fsync, hm, Flush], ?_⟩
      intro hs
      simp [Fsync, hm, hs]

/-- Witness for C6 at concrete inputs: an empty handle set yields `Eio`;
the singleton set `{7}` delegates to handle `7` exactly as `Flush`
would. -/
theorem fsync_delegates_or_eio_witness :
    Fsync (fun _ => none) ⟨[]⟩ = some Err.Eio
    ∧ Fsync (fun _ => none) ⟨[7]⟩ = Flush (fun _ => none) 7 := by
  constructor
  · exact (fsync_delegates_or_eio (fun _ => none) ⟨[]⟩).1 rfl
  · obtain ⟨h, hm, he, -⟩ :=
      (fsync_delegates_or_eio (fun _ => none) ⟨[7]⟩).2 (by simp)
    have : h = 7 := by simpa using hm
    subst this
    exact he

/-! ## C8: access checks the owner permission bits -/

/-- C8: when the stat succeeds, `Node.Access` grants the request exactly
when every requested bit is present in `mode >> 6` (the owner permission
bits of the mode), and otherwise denies with `EPERM`. -/
theorem access_owner_bits (mode mask : Nat) :
    (Access (.ok mode) mask = none
      ↔ ∀ i, mask.testBit i = true → (mode >>> 6).testBit i = true)
    ∧ (Access (.ok mode) mask = some Err.EPERM
      ↔ ¬ ∀ i, mask.testBit i = true → (mode >>> 6).testBit i = true) := by
  have key := and_eq_self_iff_subset mask (mode >>> 6)
  by_cases h : mask &&& (mode >>> 6) = mask
  · have hacc : Access (.ok mode) mask = none := by
      simp [Access, h]
    refine ⟨⟨fun _ => key.mp h, fun _ => hacc⟩, ?_, ?_⟩
    · intro hcon
      rw [hacc] at hcon
      exact absurd hcon (by simp)
    · intro hnot
      exact absurd (key.mp h) hnot
  · have hacc : Access (.ok mode) mask = some Err.EPERM := by
      simp [Access, h]
    refine ⟨⟨fun hcon => ?_, fun hsub => absurd (key.mpr hsub) h⟩,
      fun _ hsub => absurd (key.mpr hsub) h, fun _ => hacc⟩
    rw [hacc] at hcon
    exact absurd hcon (by simp)

/-- Witness for C8 at concrete inputs: mode `0o754` (owner bits `rwx`)
grants mask `r+x = 5`; mode `0o200` (owner bits `w`) denies it. -/
theorem access_owner_bits_witness :
    Access (.ok 492) 5 = none ∧ Access (.ok 128) 5 = some Err.EPERM := by
  constructor
  · apply (access_owner_bits 492 5).1.mpr
    have h7 : (492 : Nat) >>> 6 = 7 := by decide
    rw [h7]
    exact (and_eq_self_iff_subset 5 7).mp (by decide)
  · apply (access_owner_bits 128 5).2.mpr
    intro hall
    have h2 : (128 : Nat) >>> 6 = 2 := by decide
    have h0 := hall 0 (by decide)
    rw [h2] at h0
    exact absurd h0 (by decide)

/-! ## C9: ReadDirAll panics on unsupported entry types -/

/-- C9: when the directory stream is read successfully (and the
close/reopen of the descriptor succeed), a directory containing any entry
that is neither a directory nor a regular file — a symlink, device,
socket, FIFO, … — makes `Handle.ReadDirAll` panic in
`getDirentsWithFileInfos` instead of returning an error. -/
theorem readDirAll_panics_on_special (fis : List FileInfo)
    (h : ∃ fi ∈ fis, isDirMode fi.mode = false ∧ isRegularMode fi.mode = false) :
    ReadDirAll (.ok fis) none none = .panicked := by
  have hg := (getDirents_none_iff fis).mpr h
  simp [ReadDirAll, hg]

/-- Witness for C9: a directory holding one symbolic link (`ModeSymlink`
set) makes `ReadDirAll` panic. -/
theorem readDirAll_panics_on_special_witness :
    ReadDirAll (.ok [⟨ModeSymlink, 3, "link"⟩]) none none = .panicked :=
  readDirAll_panics_on_special [⟨ModeSymlink, 3, "link"⟩]
    ⟨⟨ModeSymlink, 3, "link"⟩, by simp, by decide, by decide⟩

/-! ## Registry invariant preservation (towards C2) -/

/-- States with identical registry components share the invariant. -/
theorem regInv_of_eq (f g : FS) (hn : g.nodes = f.nodes)
    (hp : g.nodePath = f.nodePath) (hf : RegInv f) : RegInv g := by
  intro p id hmem
  rw [hp]
  exact hf p id (by rw [← hn]; exact hmem)

/-- Registering a freshly created node (the `Root`/`Lookup`/`Create`/
`Mkdir` pattern) preserves the registry invariant. -/
theorem regInv_createNode (f : FS) (id : Nat) (p : String) (hf : RegInv f)
    (hfresh : ∀ q, id ∉ f.nodes q) :
    RegInv (newNode { f with nodePath := upd f.nodePath id p } id) := by
  intro q j hmem
  unfold newNode at hmem ⊢
  simp only [upd_same] at hmem ⊢
  by_cases hq : q = p
  · subst hq
    rw [upd_same] at hmem
    rcases List.mem_append.mp hmem with hj | hj
    · have hjid : j ≠ id := fun he => hfresh q (he ▸ hj)
      rw [upd_ne _ _ _ _ hjid]
      exact hf q j hj
    · have hjid : j = id := by simpa using hj
      subst hjid
      rw [upd_same]
  · rw [upd_ne _ _ _ _ hq] at hmem
    have hjid : j ≠ id := fun he => hfresh q (he ▸ hmem)
    rw [upd_ne _ _ _ _ hjid]
    exact hf q j hmem

/-- The registry migration `nodeRenamed` preserves the registry
invariant (including its degenerate `oldPath = newPath` case, where the
bucket simply disappears). -/
theorem regInv_nodeRenamed (f : FS) (oldPath newPath : String)
    (hf : RegInv f) : RegInv (nodeRenamed f oldPath newPath) := by
  intro p id hmem
  unfold nodeRenamed at hmem ⊢
  simp only [] at hmem ⊢
  rw [foldl_upd_mem]
  by_cases hpo : p = oldPath
  · subst hpo
    rw [upd_same] at hmem
    exact absurd hmem (List.not_mem_nil id)
  · rw [upd_ne _ _ _ _ hpo] at hmem
    by_cases hpn : p = newPath
    · subst hpn
      rw [upd_same] at hmem
      have hon : p ≠ oldPath := hpo
      have htu : upd (upd f.nodes p (f.nodes p ++ f.nodes oldPath)) oldPath [] p
          = f.nodes p ++ f.nodes oldPath := by
        rw [upd_ne _ _ _ _ hon, upd_same]
      rw [htu, if_pos hmem]
    · rw [upd_ne _ _ _ _ hpn] at hmem
      have hpath := hf p id hmem
      by_cases hno : newPath = oldPath
      · rw [hno, upd_same, if_neg (List.not_mem_nil id)]
        exact hpath
      · have htu : upd (upd f.nodes newPath (f.nodes newPath ++ f.nodes oldPath))
            oldPath [] newPath = f.nodes newPath ++ f.nodes oldPath := by
          rw [upd_ne _ _ _ _ hno, upd_same]
        rw [htu]
        have hnot : id ∉ f.nodes newPath ++ f.nodes oldPath := by
          intro hin
          rcases List.mem_append.mp hin with hj | hj
          · exact hpn (hpath.symm.trans (hf newPath id hj))
          · exact hpo (hpath.symm.trans (hf oldPath id hj))
        rw [if_neg hnot]
        exact hpath

/-- Forgetting a node preserves the registry invariant. -/
theorem regInv_forgetNode (f : FS) (n : Nat) (hf : RegInv f) :
    RegInv (forgetNode f n) := by
  intro p id hmem
  unfold forgetNode at hmem ⊢
  simp only [] at hmem ⊢
  by_cases hp : p = f.nodePath n
  · subst hp
    rw [upd_same] at hmem
    exact hf _ id (List.mem_of_mem_erase hmem)
  · rw [upd_ne _ _ _ _ hp] at hmem
    exact hf p id hmem

/-- C2: in every reachable registry state — and hence after every
registry operation (`newNode` on a fresh node, `nodeRenamed` directly or
via a successful `Node.Rename`, `forgetNode`) applied to a reachable
state — every registered node sits in the bucket keyed by its own current
real-path field, and consequently no node sits under two different keys
at once. -/
theorem reach_registry_invariant (f : FS) (hf : Reach f) :
    (∀ p id, id ∈ f.nodes p → f.nodePath id = p)
    ∧ (∀ p q id, id ∈ f.nodes p → id ∈ f.nodes q → p = q) := by
  have h : RegInv f := by
    induction hf with
    | init lat =>
      intro p id hmem
      simp [NewFS] at hmem
    | createNode g id p hr hfresh ih => exact regInv_createNode g id p ih hfresh
    | renamed g o n hr ih => exact regInv_nodeRenamed g o n ih
    | renameOp g op np r hr ih =>
      cases r with
      | some e => exact ih
      | none =>
        exact regInv_nodeRenamed _ op np
          (regInv_of_eq _ _ (moveAllxattrs_frame g op np).1
            (moveAllxattrs_frame g op np).2.1 ih)
    | forget g id hr ih => exact regInv_forgetNode g id ih
    | movedXattrs g a b hr ih =>
      exact regInv_of_eq _ _ (moveAllxattrs_frame g a b).1
        (moveAllxattrs_frame g a b).2.1 ih
    | setx g p name v hr ih =>
      cases hflag : g.inMemoryXattr with
      | false =>
        refine regInv_of_eq _ _ ?_ ?_ ih <;> simp [SetxattrAt, hflag]
      | true =>
        refine regInv_of_eq _ _ ?_ ?_ ih <;> simp [SetxattrAt, hflag]
    | removex g p name hr ih =>
      cases hflag : g.inMemoryXattr with
      | false =>
        refine regInv_of_eq _ _ ?_ ?_ ih <;> simp [RemovexattrAt, hflag]
      | true =>
        cases hx : g.xattrs p with
        | none =>
          refine regInv_of_eq _ _ ?_ ?_ ih <;> simp [RemovexattrAt, hflag, hx]
        | some x =>
          cases hg : xget x name with
          | none =>
            refine regInv_of_eq _ _ ?_ ?_ ih <;>
              simp [RemovexattrAt, hflag, hx, hg]
          | some v =>
            refine regInv_of_eq _ _ ?_ ?_ ih <;>
              simp [RemovexattrAt, hflag, hx, hg]
  refine ⟨h, fun p q id hp hq => ?_⟩
  rw [← h p id hp, h q id hq]

/-- Witness for C2: the sample state is reachable, node `5` is registered
under `"a"`, and the invariant places its path field at `"a"`. -/
theorem reach_registry_invariant_witness :
    5 ∈ regSample.nodes "a" ∧ regSample.nodePath 5 = "a" := by
  have hreach : Reach regSample :=
    Reach.createNode (NewFS 0) 5 "a" (Reach.init 0)
      (fun q => List.not_mem_nil 5)
  have hmem : 5 ∈ regSample.nodes "a" := by
    simp [regSample, newNode, NewFS, upd]
  exact ⟨hmem, (reach_registry_invariant regSample hreach).1 "a" 5 hmem⟩

/-! ## C1: the rename invariant -/

/-- C1 (amended): let a successful `Node.Rename` move `P = op` to
`P' = np` with `op ≠ np`, `np` nonempty, and with the xattr store holding
an entry (a non-`nil` Go map, possibly empty) for `op`. Then every node
registered under `op` afterwards reports `np` as its current real path, a
getxattr against `np` returns exactly what a getxattr against `op`
returned before, and (emulation enabled) a getxattr against `op` now
returns `ENODATA` for every attribute name.

The two side conditions are forced by the code: when the store has no
entry for `op`, `moveAllxattrs` does nothing and a pre-existing attribute
set at `np` survives (see `rename_stale_destination_xattrs`), and a
rename with `op = np` erases the bucket and the attributes instead of
preserving them. -/
theorem rename_invariant (f : FS) (op np : String) (m : List (String × Bytes))
    (hflag : f.inMemoryXattr = true) (hne : op ≠ np) (hnp : np ≠ "")
    (hm : f.xattrs op = some m) :
    (∀ id, id ∈ f.nodes op → (Rename f op np none).1.nodePath id = np)
    ∧ (∀ name, GetxattrAt (Rename f op np none).1 np name = GetxattrAt f op name)
    ∧ (∀ name, GetxattrAt (Rename f op np none).1 op name = .error .ENODATA) := by
  have hmove : (moveAllxattrs f op np).xattrs
      = upd (upd f.xattrs np (some m)) op none := by
    unfold moveAllxattrs
    rw [hm]
    simp [hnp]
  have hflag' : (Rename f op np none).1.inMemoryXattr = true := by
    show (nodeRenamed (moveAllxattrs f op np) op np).inMemoryXattr = true
    rw [(nodeRenamed_frame _ op np).2.2, (moveAllxattrs_frame f op np).2.2.2]
    exact hflag
  have hxa : (Rename f op np none).1.xattrs
      = upd (upd f.xattrs np (some m)) op none := by
    show (nodeRenamed (moveAllxattrs f op np) op np).xattrs = _
    rw [(nodeRenamed_frame _ op np).1, hmove]
  refine ⟨?_, ?_, ?_⟩
  · intro id hid
    show (nodeRenamed (moveAllxattrs f op np) op np).nodePath id = np
    unfold nodeRenamed
    simp only []
    rw [foldl_upd_mem]
    have hnodes : (moveAllxattrs f op np).nodes = f.nodes :=
      (moveAllxattrs_frame f op np).1
    have hon : np ≠ op := fun he => hne he.symm
    have htu : upd (upd (moveAllxattrs f op np).nodes np
          ((moveAllxattrs f op np).nodes np ++ (moveAllxattrs f op np).nodes op))
          op [] np
        = f.nodes np ++ f.nodes op := by
      rw [upd_ne _ _ _ _ hon, upd_same, hnodes]
    rw [htu, if_pos (List.mem_append.mpr (Or.inr hid))]
  · intro name
    unfold GetxattrAt
    rw [hflag', hflag, hxa]
    rw [upd_ne _ _ _ _ (fun he => hne he.symm), upd_same, hm]
  · intro name
    unfold GetxattrAt
    rw [hflag', hxa, upd_same]
    rfl

/-- Witness for C1 at concrete inputs: after renaming `"a"` to `"b"`,
node `0` reports `"b"`, the attribute travelled to `"b"`, and `"a"` has
no data any more. -/
theorem rename_invariant_witness :
    (Rename renameSample "a" "b" none).1.nodePath 0 = "b"
    ∧ GetxattrAt (Rename renameSample "a" "b" none).1 "b" "k" = .ok [1]
    ∧ GetxattrAt (Rename renameSample "a" "b" none).1 "a" "k"
        = .error .ENODATA := by
  have hth := rename_invariant renameSample "a" "b" [("k", [1])] rfl
    (by decide) (by decide) rfl
  refine ⟨hth.1 0 (by simp [renameSample, upd]), ?_, hth.2.2 "k"⟩
  rw [hth.2.1 "k"]
  rfl

/-- C1 counterexample: before the rename, the attribute set stored under
`P = "a"` is empty (`getxattr("a","k") = ENODATA`), yet after the
successful rename of `"a"` to `P' = "b"` a getxattr against `"b"` still
returns `[1]` — the stale value that was sitting at the destination — so
it does not return "exactly the attribute set previously stored under
P" as the claim states: `moveAllxattrs` does nothing when the source has
no entry and leaves the destination's old attributes in place. -/
theorem rename_stale_destination_xattrs :
    GetxattrAt renameStaleSample "a" "k" = .error .ENODATA
    ∧ (Rename renameStaleSample "a" "b" none).2 = none
    ∧ GetxattrAt (Rename renameStaleSample "a" "b" none).1 "b" "k" = .ok [1] :=
  ⟨rfl, rfl, rfl⟩

/-! ## C10: rename migrates exactly the oldPath key -/

/-- A strict descendant of a path differs from it. -/
theorem strictDescendant_ne (q p : String) (h : StrictDescendant q p) :
    q ≠ p := by
  obtain ⟨t, ht, hq⟩ := h
  intro he
  rw [he] at hq
  have hlen := congrArg String.length hq
  rw [String.length_append, String.length_append] at hlen
  have ht0 : t.length ≠ 0 := fun h0 => ht (by
    cases t with
    | mk data =>
      cases data with
      | nil => rfl
      | cons c cs => simp [String.length] at h0)
  omega

/-- C10: a successful rename of `op` to `np` migrates only the registry
bucket and the xattr entry keyed by exactly `op`: at every path `q` that
is a strict descendant of `op` (and distinct from `np`), the registry
bucket is unchanged, every node registered there keeps its old real-path
field, and the xattr entries stay keyed by `q` — even though a directory
rename moved those files on the underlying filesystem. -/
theorem rename_frame_descendants (f : FS) (op np q : String)
    (hinv : RegInv f) (hdesc : StrictDescendant q op) (hqnp : q ≠ np) :
    (Rename f op np none).1.nodes q = f.nodes q
    ∧ (∀ id, id ∈ f.nodes q → (Rename f op np none).1.nodePath id = f.nodePath id)
    ∧ (Rename f op np none).1.xattrs q = f.xattrs q := by
  have hqop : q ≠ op := strictDescendant_ne q op hdesc
  have hnodes : (moveAllxattrs f op np).nodes = f.nodes :=
    (moveAllxattrs_frame f op np).1
  have hpaths : (moveAllxattrs f op np).nodePath = f.nodePath :=
    (moveAllxattrs_frame f op np).2.1
  refine ⟨?_, ?_, ?_⟩
  · show (nodeRenamed (moveAllxattrs f op np) op np).nodes q = f.nodes q
    unfold nodeRenamed
    simp only []
    rw [upd_ne _ _ _ _ hqop, upd_ne _ _ _ _ hqnp, hnodes]
  · intro id hid
    show (nodeRenamed (moveAllxattrs f op np) op np).nodePath id = f.nodePath id
    unfold nodeRenamed
    simp only []
    rw [foldl_upd_mem, hpaths]
    have hq := hinv q id hid
    by_cases hno : np = op
    · rw [hno, upd_same, if_neg (List.not_mem_nil id)]
    · have htu : upd (upd (moveAllxattrs f op np).nodes np
            ((moveAllxattrs f op np).nodes np ++ (moveAllxattrs f op np).nodes op))
            op [] np
          = f.nodes np ++ f.nodes op := by
        rw [upd_ne _ _ _ _ hno, upd_same, hnodes]
      rw [htu]
      have hnot : id ∉ f.nodes np ++ f.nodes op := by
        intro hin
        rcases List.mem_append.mp hin with hj | hj
        · exact hqnp (hq.symm.trans (hinv np id hj))
        · exact hqop (hq.symm.trans (hinv op id hj))
      rw [if_neg hnot]
  · show (nodeRenamed (moveAllxattrs f op np) op np).xattrs q = f.xattrs q
    rw [(nodeRenamed_frame _ op np).1]
    exact moveAllxattrs_xattrs_ne f op np q hqop hqnp

/-- The sample state satisfies the registry invariant. -/
theorem frameSample_regInv : RegInv frameSample := by
  intro p id hmem
  simp only [frameSample] at hmem ⊢
  by_cases h1 : p = "a"
  · subst h1
    rw [upd_same] at hmem
    have : id = 0 := by simpa using hmem
    subst this
    rfl
  · rw [upd_ne _ _ _ _ h1] at hmem
    by_cases h2 : p = "a/b"
    · subst h2
      rw [upd_same] at hmem
      have : id = 1 := by simpa using hmem
      subst this
      rfl
    · rw [upd_ne _ _ _ _ h2] at hmem
      exact absurd hmem (List.not_mem_nil id)

/-- Witness for C10 at concrete inputs: renaming `"a"` to `"c"` leaves
the bucket, the path field of node `1`, and the attribute entry of the
strict descendant `"a/b"` untouched. -/
theorem rename_frame_descendants_witness :
    (Rename frameSample "a" "c" none).1.nodes "a/b" = [1]
    ∧ (Rename frameSample "a" "c" none).1.nodePath 1 = "a/b"
    ∧ (Rename frameSample "a" "c" none).1.xattrs "a/b" = some [("k", [2])] := by
  have hth := rename_frame_descendants frameSample "a" "c" "a/b"
    frameSample_regInv ⟨"b", by decide, rfl⟩ (by decide)
  have hmem : 1 ∈ frameSample.nodes "a/b" := by
    simp [frameSample, upd]
  refine ⟨hth.1.trans ?_, (hth.2.1 1 hmem).trans ?_, hth.2.2.trans ?_⟩ <;> rfl

/-! ## C7: listxattr pagination -/

/-- Normal form of one `Listxattr` slice: drop the offset, then take the
effective count (the whole remainder when the count is zero or exceeds
it). -/
theorem listxattrNames_eq (names : List String) (pos size : Nat) :
    listxattrNames names pos size
      = ((sortStrings names).drop pos).take
          (if size = 0 || decide (size > ((sortStrings names).drop pos).length)
            then ((sortStrings names).drop pos).length else size) := by
  unfold listxattrNames
  by_cases h : pos ≥ (sortStrings names).length
  · rw [if_pos h]
    rw [List.drop_eq_nil_of_le h]
    simp
  · rw [if_neg h]

/-- The effective count of a slice never exceeds the remainder. -/
theorem listxattr_eff_le (L : List String) (size : Nat) :
    (if size = 0 || decide (size > L.length) then L.length else size)
      ≤ L.length := by
  by_cases h0 : size = 0
  · simp [h0]
  · by_cases hgt : size > L.length
    · simp [h0, hgt]
    · simp [h0, hgt]
      omega

/-- One pagination step: a slice at `pos` followed by the tail of the
sorted list starting right after the returned names reassembles the tail
starting at `pos` — no name is duplicated or skipped at the seam. -/
theorem listxattrNames_step (names : List String) (pos size : Nat) :
    listxattrNames names pos size
      ++ (sortStrings names).drop (pos + (listxattrNames names pos size).length)
      = (sortStrings names).drop pos := by
  rw [listxattrNames_eq]
  generalize (sortStrings names) = S
  have hdrop : ∀ k, S.drop (pos + k) = (S.drop pos).drop k := by
    intro k
    rw [List.drop_drop]
  rw [hdrop]
  set L := S.drop pos with hL
  set s := (if size = 0 || decide (size > L.length) then L.length else size)
    with hs
  have hle : s ≤ L.length := listxattr_eff_le L size
  rw [List.length_take_of_le hle]
  exact List.take_append_drop s L

/-- A slice at an offset below the total is nonempty. -/
theorem listxattrNames_ne_nil (names : List String) (pos size : Nat)
    (h : pos < (sortStrings names).length) :
    1 ≤ (listxattrNames names pos size).length := by
  rw [listxattrNames_eq]
  set L := (sortStrings names).drop pos with hL
  have hlen : 1 ≤ L.length := by
    rw [hL, List.length_drop]
    omega
  set s := (if size = 0 || decide (size > L.length) then L.length else size)
    with hs
  have h1 : 1 ≤ s := by
    by_cases h0 : size = 0
    · simp [hs, h0]
      omega
    · by_cases hgt : size > L.length
      · simp [hs, h0, hgt]
        omega
      · simp [hs, h0, hgt]
        omega
  rw [List.length_take]
  omega

/-- Enough calls enumerate the whole tail: with at least one call per
remaining name, the pagination loop started at `pos` returns exactly the
sorted list from `pos` on. -/
theorem pagEnum_drop (names : List String) :
    ∀ (sizes : List Nat) (pos : Nat),
      (sortStrings names).length ≤ pos + sizes.length →
      pagEnum names sizes pos = (sortStrings names).drop pos := by
  intro sizes
  induction sizes with
  | nil =>
    intro pos h
    rw [List.drop_eq_nil_of_le (by simpa using h)]
    rfl
  | cons sz rest ih =>
    intro pos h
    show listxattrNames names pos sz
        ++ pagEnum names rest (pos + (listxattrNames names pos sz).length)
      = (sortStrings names).drop pos
    by_cases hpos : pos < (sortStrings names).length
    · have h1 := listxattrNames_ne_nil names pos sz hpos
      rw [ih (pos + (listxattrNames names pos sz).length) (by
        simp only [List.length_cons] at h
        omega)]
      exact listxattrNames_step names pos sz
    · have hend : listxattrNames names pos sz = [] := by
        unfold listxattrNames
        rw [if_pos (by omega)]
      rw [hend]
      simp only [List.nil_append, List.length_nil, Nat.add_zero]
      exact ih pos (by simp only [List.length_cons] at h; omega)

/-- C7: with emulation enabled and an attribute map stored for the
node's path, every `Listxattr` call returns the slice of the stable
sorted key sequence given by its offset and count; the sorted sequence is
sorted and a permutation of the stored keys; the call result is empty as
soon as the offset reaches the total number of names; a count of zero
returns the whole remainder; and a pagination loop that advances the
offset by the returned count each call (any per-call counts, one call per
name sufficing) returns every attribute name exactly once — the
concatenation is exactly the sorted key sequence, without duplication or
omission. -/
theorem listxattr_pagination (f : FS) (p : String) (x : List (String × Bytes))
    (sizes : List Nat) (hflag : f.inMemoryXattr = true)
    (hx : f.xattrs p = some x)
    (hcalls : (sortStrings (keysOf x)).length ≤ sizes.length) :
    (∀ pos size, ListxattrAt f p pos size
        = .ok (listxattrNames (keysOf x) pos size))
    ∧ List.Sorted (· ≤ ·) (sortStrings (keysOf x))
    ∧ (sortStrings (keysOf x)).Perm (keysOf x)
    ∧ (∀ pos size, (sortStrings (keysOf x)).length ≤ pos →
        listxattrNames (keysOf x) pos size = [])
    ∧ (∀ pos, listxattrNames (keysOf x) pos 0 = (sortStrings (keysOf x)).drop pos)
    ∧ pagEnum (keysOf x) sizes 0 = sortStrings (keysOf x)
    ∧ ((keysOf x).Nodup → (pagEnum (keysOf x) sizes 0).Nodup) := by
  have hperm : (sortStrings (keysOf x)).Perm (keysOf x) :=
    List.perm_insertionSort (· ≤ ·) (keysOf x)
  have hpag : pagEnum (keysOf x) sizes 0 = sortStrings (keysOf x) := by
    rw [pagEnum_drop (keysOf x) sizes 0 (by simpa using hcalls)]
    exact List.drop_zero _
  refine ⟨?_, ?_, hperm, ?_, ?_, hpag, ?_⟩
  · intro pos size
    unfold ListxattrAt
    rw [hflag, hx]
    rfl
  · exact List.sorted_insertionSort (· ≤ ·) (keysOf x)
  · intro pos size hge
    unfold listxattrNames
    rw [if_pos hge]
  · intro pos
    rw [listxattrNames_eq]
    simp
  · intro hnodup
    rw [hpag]
    exact hperm.nodup_iff.mpr hnodup

/-- Witness for C7 at concrete inputs: keys `["b", "a"]`, page size `1`,
three calls — the first page is `["a"]`, the loop enumerates
`["a", "b"]`, and offset `2` is past the end. -/
theorem listxattr_pagination_witness :
    ListxattrAt pagSample "p" 0 1 = .ok ["a"]
    ∧ pagEnum (keysOf [("b", [1]), ("a", [2])]) [1, 1, 1] 0 = ["a", "b"]
    ∧ listxattrNames (keysOf [("b", [1]), ("a", [2])]) 2 1 = [] := by
  have hsort : sortStrings (keysOf [("b", [1]), ("a", [2])]) = ["a", "b"] := by
    simp [sortStrings, keysOf, List.insertionSort, List.orderedInsert]
    decide
  have hth := listxattr_pagination pagSample "p" [("b", [1]), ("a", [2])]
    [1, 1, 1] rfl rfl (by rw [hsort]; decide)
  refine ⟨(hth.1 0 1).trans ?_, hth.2.2.2.2.2.1.trans hsort,
    hth.2.2.2.1 2 1 (by rw [hsort]; decide)⟩
  have h1 : listxattrNames (keysOf [("b", [1]), ("a", [2])]) 0 1 = ["a"] := by
    rw [listxattrNames_eq, hsort]
    decide
  rw [h1]

end Overlay
